import Mathlib

/-!
Shallow embedding of `src/autocrop.py` (konairius/autocrop).

The program extracts sub-images from scanned pages: a region detector
(`find_sub_images`), an orientation resolver and border cropper
(`process_sub_image`), and a driver loop (`main`).  Pixel data is modelled
as lists of rows of natural-number intensities (grayscale) or channel
triples (color).  Calls into external libraries (OpenCV contour extraction,
numpy means, pytesseract OCR, PIL rotation) are modelled as oracle inputs;
the arithmetic the libraries document (OpenCV `THRESH_BINARY`, the shoelace
contour area, `boundingRect`, PIL `convert`, `invert`, `getbbox`, `crop`)
is embedded directly.
-/

namespace Autocrop

/-! ### Region detector: pixel operations (autocrop.py lines 58-66) -/

/-- `cv2.threshold(gray, 200, 255, cv2.THRESH_BINARY)` on one pixel:
OpenCV sets the destination to `maxval` when `src > thresh` (strictly),
else `0`.  (autocrop.py line 62) -/
def thresholdBinary200 (v : Nat) : Nat := if 200 < v then 255 else 0

/-- `cv2.bitwise_not` on one 8-bit pixel (autocrop.py line 66). -/
def bitwiseNot (v : Nat) : Nat := 255 - v

/-- The threshold applied to a whole grayscale image. -/
def thresholdImage (img : List (List Nat)) : List (List Nat) :=
  img.map (List.map thresholdBinary200)

/-- The inversion applied to a whole mask. -/
def invertMask (img : List (List Nat)) : List (List Nat) :=
  img.map (List.map bitwiseNot)

/-! ### Contours, area and bounding rectangles (autocrop.py lines 68-74)

`cv2.findContours` is an external call; a contour is its output: a list
of integer pixel coordinates `(x, y)` lying inside the image. -/

abbrev Contour := List (Nat × Nat)

/-- One cross term of the shoelace formula. -/
def cross (p q : Nat × Nat) : Int :=
  (p.1 : Int) * (q.2 : Int) - (q.1 : Int) * (p.2 : Int)

/-- Signed double area of the polygon: the sum of cross terms over the
cyclically consecutive vertex pairs. -/
def shoelace (c : Contour) : Int :=
  (c.zip (c.rotate 1)).foldl (fun a pq => a + cross pq.1 pq.2) 0

/-- `cv2.contourArea` (default non-oriented): the absolute polygon area,
half the absolute shoelace sum (autocrop.py line 72). -/
def contourArea (c : Contour) : ℚ :=
  ((shoelace c).natAbs : ℚ) / 2

/-- A bounding box as `cv2.boundingRect` returns it: `(x, y, w, h)` with
`w = max x - min x + 1`, `h = max y - min y + 1`.  Stored with the field
order of the spec's BoundingBox (width, height, x, y). -/
structure Box where
  w : Nat
  h : Nat
  x : Nat
  y : Nat
deriving DecidableEq, Repr

/-- `cv2.boundingRect` on a (nonempty) contour (autocrop.py line 73). -/
def boundingRect (c : Contour) : Box :=
  match c with
  | [] => ⟨0, 0, 0, 0⟩
  | p :: ps =>
    let minx := ps.foldl (fun a q => Nat.min a q.1) p.1
    let maxx := ps.foldl (fun a q => Nat.max a q.1) p.1
    let miny := ps.foldl (fun a q => Nat.min a q.2) p.2
    let maxy := ps.foldl (fun a q => Nat.max a q.2) p.2
    ⟨maxx - minx + 1, maxy - miny + 1, minx, miny⟩

/-- The contour filter and bounding-rect loop of `find_sub_images`
(autocrop.py lines 70-74): keep contours of area strictly above 5000,
emit one bounding rectangle per surviving contour. -/
def subImageBoxes (cs : List Contour) : List Box :=
  (cs.filter (fun c => 5000 < contourArea c)).map boundingRect

/-! ### The box string format (autocrop.py line 74 / line 87) -/

/-- Python decimal digits of `n`, most significant first (`f'\x7bn\x7d'`). -/
def decDigits (n : Nat) : List Nat :=
  if n = 0 then [0] else (Nat.digits 10 n).reverse

/-- The character of one decimal digit. -/
def digitChar (d : Nat) : Char := Char.ofNat (48 + d)

/-- The decimal representation of `n` as characters. -/
def natToChars (n : Nat) : List Char := (decDigits n).map digitChar

/-- `f'\x7bw\x7dx\x7bh\x7d+\x7bx\x7d+\x7by\x7d'` (autocrop.py line 74). -/
def formatBox (w h x y : Nat) : List Char :=
  natToChars w ++ ('x' :: (natToChars h ++ ('+' :: (natToChars x ++ ('+' :: natToChars y)))))

/-- `find_sub_images`' successful body: boxes of the surviving contours,
each formatted as a `WxH+X+Y` string (autocrop.py lines 70-79). -/
def find_sub_images_boxes (cs : List Contour) : List (List Char) :=
  (subImageBoxes cs).map (fun b => formatBox b.w b.h b.x b.y)

/-- `find_sub_images` with its `try`/`except`: the OpenCV pipeline either
yields the contour list or raises; on an exception the function returns
`[]` (autocrop.py lines 57-83). -/
def find_sub_images_result (r : Except Unit (List Contour)) : List (List Char) :=
  match r with
  | Except.error _ => []
  | Except.ok cs => find_sub_images_boxes cs

/-! ### Parsing a box string (autocrop.py line 87)

`re.findall(r'\d+', box)` takes the maximal runs of digit characters;
`map(int, ...)` converts each run; the four values are unpacked as
`width, height, x, y`. -/

/-- Numeric value of a digit character. -/
def charVal (c : Char) : Nat := c.toNat - 48

/-- `int` applied to a run of digit characters. -/
def charsToNat (ds : List Char) : Nat :=
  ds.foldl (fun a c => 10 * a + charVal c) 0

lemma dropWhile_length_le (p : α → Bool) (l : List α) :
    (l.dropWhile p).length ≤ l.length := by
  induction l with
  | nil => simp [List.dropWhile]
  | cons a l ih =>
    by_cases h : p a
    · simp only [List.dropWhile, h]
      exact Nat.le_succ_of_le ih
    · simp [List.dropWhile, h]

/-- The maximal runs of digit characters of a string, in order:
the model of `re.findall(r'\d+', s)`. -/
def digitRuns : List Char → List (List Char)
  | [] => []
  | c :: cs =>
    if c.isDigit then
      (c :: cs.takeWhile Char.isDigit) :: digitRuns (cs.dropWhile Char.isDigit)
    else
      digitRuns cs
termination_by l => l.length
decreasing_by
  · simpa using Nat.lt_succ_of_le (dropWhile_length_le Char.isDigit cs)
  · simp

/-- `width, height, x, y = map(int, re.findall(r'\d+', box))`
(autocrop.py line 87): succeeds exactly when there are four digit runs. -/
def parseBox (s : List Char) : Option (Nat × Nat × Nat × Nat) :=
  match (digitRuns s).map charsToNat with
  | [w, h, x, y] => some (w, h, x, y)
  | _ => none

/-! ### Orientation resolver (autocrop.py lines 93-137)

Per rotation candidate, the loop body observes three things produced by
external libraries: the height of the top 10% slice (`int(height * 0.10)`),
whether the slice's mean gray value is below 100 (`np.mean` on the pixel
data), and the stripped pytesseract output, where `none` stands for the
`except` branch (pytesseract raised).  These observations are the oracle
input; the selection logic over them is embedded from the source. -/

/-- What the loop body observes for one rotation candidate. -/
structure CandidateObs where
  slice_height : Nat
  slice_is_dark : Bool
  ocr : Option (List Char)
deriving Repr

/-- The three ways a candidate's evaluation can end: skipped before OCR
(zero-height slice, or the slice is not predominantly dark), OCR raised,
or OCR returned the stripped text `t`. -/
inductive OcrOutcome where
  | skipped : OcrOutcome
  | failed : OcrOutcome
  | text : List Char → OcrOutcome
deriving DecidableEq, Repr

/-- The control flow of one loop iteration up to the `if` that updates the
best candidate: `continue` when the slice height is zero (line 103), skip
OCR when the slice is not predominantly dark (lines 113, 129-130), and the
`try`/`except` around pytesseract (lines 118-128). -/
def candidateOutcome (o : CandidateObs) : OcrOutcome :=
  if o.slice_height = 0 then OcrOutcome.skipped
  else if o.slice_is_dark then
    match o.ocr with
    | none => OcrOutcome.failed
    | some t => OcrOutcome.text t
  else OcrOutcome.skipped

/-- The mutable state of the search: `best_rotation = 0`, `best_text = ""`,
`found_orientation = False` initially (autocrop.py lines 93-95). -/
structure OrientState where
  best_rotation : Nat
  best_text : List Char
  found_orientation : Bool
deriving DecidableEq, Repr

/-- One iteration of the rotation loop: the state is replaced exactly when
the candidate produced text strictly longer than `best_text` that contains
a space (autocrop.py lines 122-125); a skipped candidate or a failed OCR
leaves the state unchanged. -/
def orientStep (eval : Nat → OcrOutcome) (s : OrientState) (rotation : Nat) :
    OrientState :=
  match eval rotation with
  | OcrOutcome.skipped => s
  | OcrOutcome.failed => s
  | OcrOutcome.text t =>
    if s.best_text.length < t.length ∧ ' ' ∈ t then ⟨rotation, t, true⟩ else s

/-- The candidate rotations in source order (autocrop.py line 97). -/
def rotationOrder : List Nat := [0, 270, 90, 180]

/-- The whole `for rotation in [0, 270, 90, 180]` loop
(autocrop.py lines 93-131). -/
def resolveOrientation (eval : Nat → OcrOutcome) : OrientState :=
  rotationOrder.foldl (orientStep eval) ⟨0, [], false⟩

/-- The loop as run on per-rotation observations. -/
def resolveOrientationObs (obs : Nat → CandidateObs) : OrientState :=
  resolveOrientation (fun r => candidateOutcome (obs r))

/-! ### The driver loop (autocrop.py lines 162-169) -/

/-- `f"final_image_\x7btotal_images_saved\x7d.jpg"` (autocrop.py line 167). -/
def outputName (n : Nat) : List Char :=
  "final_image_".data ++ natToChars n ++ ".jpg".data

/-- The inner `for i, box in enumerate(boxes)` loop of `main`: the counter
is incremented, then the file name is formed from the new counter value
(autocrop.py lines 165-169).  The state is the counter together with the
names saved so far. -/
def saveLoop (acc : Nat × List (List Char)) (boxes : List (List Char)) :
    Nat × List (List Char) :=
  boxes.foldl (fun a _box => (a.1 + 1, a.2 ++ [outputName (a.1 + 1)])) acc

/-- The outer loop of `main` over the page images, starting from
`total_images_saved = 0` (autocrop.py lines 162-169): returns the final
counter and the output file names in order of saving.  `pages` is the list
of `find_sub_images` results, one per page image. -/
def mainSaved (pages : List (List (List Char))) : Nat × List (List Char) :=
  pages.foldl saveLoop (0, [])

/-! ### Border cropper (autocrop.py lines 140-146)

PIL images are lists of rows; a color pixel is an `(r, g, b)` triple. -/

abbrev RGB := Nat × Nat × Nat

/-- PIL `convert('L')` on one pixel:
`L = (R*19595 + G*38470 + B*7471 + 0x8000) >> 16`. -/
def luma (p : RGB) : Nat :=
  (p.1 * 19595 + p.2.1 * 38470 + p.2.2 * 7471 + 32768) / 65536

/-- `final_image.convert('L')` (autocrop.py line 140). -/
def convertL (img : List (List RGB)) : List (List Nat) :=
  img.map (List.map luma)

/-- `ImageOps.invert` on a grayscale image (autocrop.py lines 140, 144). -/
def invertL (img : List (List Nat)) : List (List Nat) :=
  img.map (List.map (fun v => 255 - v))

/-- `convert('RGB')` on a grayscale image: the gray value replicated into
the three channels (autocrop.py line 144). -/
def convertRGB (img : List (List Nat)) : List (List RGB) :=
  img.map (List.map (fun v => (v, v, v)))

/-- The coordinates `(x, y)` of the nonzero pixels of a grayscale image. -/
def nonzeroPositions (img : List (List Nat)) : List (Nat × Nat) :=
  (img.enum.map (fun ry =>
    ry.2.enum.filterMap (fun cv =>
      if cv.2 ≠ 0 then some (cv.1, ry.1) else none))).flatten

/-- PIL `getbbox()` (autocrop.py line 141): `none` when every pixel is
zero, otherwise `(left, upper, right, lower)` with exclusive right and
lower bounds. -/
def getbbox (img : List (List Nat)) : Option (Nat × Nat × Nat × Nat) :=
  match nonzeroPositions img with
  | [] => none
  | p :: ps =>
    let minx := ps.foldl (fun a q => Nat.min a q.1) p.1
    let maxx := ps.foldl (fun a q => Nat.max a q.1) p.1
    let miny := ps.foldl (fun a q => Nat.min a q.2) p.2
    let maxy := ps.foldl (fun a q => Nat.max a q.2) p.2
    some (minx, miny, maxx + 1, maxy + 1)

/-- PIL `crop((l, u, r, low))` (autocrop.py line 143). -/
def cropBoxL (b : Nat × Nat × Nat × Nat) (img : List (List Nat)) :
    List (List Nat) :=
  ((img.drop b.2.1).take (b.2.2.2 - b.2.1)).map
    (fun row => (row.drop b.1).take (b.2.2.1 - b.1))

/-- The border autocrop block (autocrop.py lines 140-144): convert to
grayscale, invert, compute `getbbox`, crop when a box exists, re-invert,
convert back to RGB. -/
def autocropBorder (img : List (List RGB)) : List (List RGB) :=
  let inv := invertL (convertL img)
  let cropped :=
    match getbbox inv with
    | none => inv
    | some b => cropBoxL b inv
  convertRGB (invertL cropped)

/-! ### Lemmas: decimal digits and digit runs -/

lemma decDigits_ne_nil (n : Nat) : decDigits n ≠ [] := by
  unfold decDigits
  by_cases h : n = 0
  · simp [h]
  · simp only [h, if_false, ne_eq, List.reverse_eq_nil_iff]
    exact Nat.digits_ne_nil_iff_ne_zero.mpr h

lemma decDigits_lt_ten (n : Nat) : ∀ d ∈ decDigits n, d < 10 := by
  intro d hd
  unfold decDigits at hd
  by_cases h : n = 0
  · simp [h] at hd
    omega
  · simp only [h, if_false, List.mem_reverse] at hd
    exact Nat.digits_lt_base (by norm_num) hd

lemma digitChar_isDigit : ∀ d, d < 10 → (digitChar d).isDigit = true := by
  decide

lemma charVal_digitChar : ∀ d, d < 10 → charVal (digitChar d) = d := by
  decide

lemma natToChars_ne_nil (n : Nat) : natToChars n ≠ [] := by
  unfold natToChars
  simp only [ne_eq, List.map_eq_nil_iff]
  exact decDigits_ne_nil n

lemma natToChars_isDigit (n : Nat) : ∀ c ∈ natToChars n, c.isDigit = true := by
  intro c hc
  unfold natToChars at hc
  obtain ⟨d, hd, rfl⟩ := List.mem_map.mp hc
  exact digitChar_isDigit d (decDigits_lt_ten n d hd)

lemma takeWhile_append_stop (p : Char → Bool) (l : List Char) (sep : Char)
    (r : List Char) (hl : ∀ c ∈ l, p c = true) (hsep : p sep = false) :
    (l ++ sep :: r).takeWhile p = l := by
  induction l with
  | nil => simp [List.takeWhile, hsep]
  | cons a t ih =>
    have ha : p a = true := hl a (List.mem_cons_self a t)
    simp only [List.cons_append, List.takeWhile_cons, ha, if_true]
    rw [ih (fun c hc => hl c (List.mem_cons_of_mem a hc))]

lemma dropWhile_append_stop (p : Char → Bool) (l : List Char) (sep : Char)
    (r : List Char) (hl : ∀ c ∈ l, p c = true) (hsep : p sep = false) :
    (l ++ sep :: r).dropWhile p = sep :: r := by
  induction l with
  | nil => simp [List.dropWhile, hsep]
  | cons a t ih =>
    have ha : p a = true := hl a (List.mem_cons_self a t)
    simp only [List.cons_append, List.dropWhile_cons, ha, if_true]
    exact ih (fun c hc => hl c (List.mem_cons_of_mem a hc))

lemma digitRuns_nondigit (sep : Char) (r : List Char)
    (hsep : sep.isDigit = false) :
    digitRuns (sep :: r) = digitRuns r := by
  rw [digitRuns]
  simp [hsep]

lemma digitRuns_run_append (ds : List Char) (sep : Char) (rest : List Char)
    (hne : ds ≠ []) (hds : ∀ c ∈ ds, c.isDigit = true)
    (hsep : sep.isDigit = false) :
    digitRuns (ds ++ sep :: rest) = ds :: digitRuns rest := by
  obtain ⟨d, t, rfl⟩ := List.exists_cons_of_ne_nil hne
  have hd : d.isDigit = true := hds d (List.mem_cons_self d t)
  have ht : ∀ c ∈ t, c.isDigit = true :=
    fun c hc => hds c (List.mem_cons_of_mem d hc)
  rw [List.cons_append, digitRuns]
  simp only [hd, if_true]
  rw [takeWhile_append_stop Char.isDigit t sep rest ht hsep,
    dropWhile_append_stop Char.isDigit t sep rest ht hsep,
    digitRuns_nondigit sep rest hsep]

lemma digitRuns_all_digits (ds : List Char) (hne : ds ≠ [])
    (hds : ∀ c ∈ ds, c.isDigit = true) :
    digitRuns ds = [ds] := by
  obtain ⟨d, t, rfl⟩ := List.exists_cons_of_ne_nil hne
  have hd : d.isDigit = true := hds d (List.mem_cons_self d t)
  have ht : ∀ c ∈ t, c.isDigit = true :=
    fun c hc => hds c (List.mem_cons_of_mem d hc)
  rw [digitRuns]
  simp only [hd, if_true]
  rw [List.takeWhile_eq_self_iff.mpr ht, List.dropWhile_eq_nil_iff.mpr ht,
    digitRuns]

lemma charsToNat_foldl (ds : List Nat) (hds : ∀ d ∈ ds, d < 10) :
    ∀ acc : Nat,
      (ds.map digitChar).foldl (fun a c => 10 * a + charVal c) acc =
        acc * 10 ^ ds.length + Nat.ofDigits 10 ds.reverse := by
  induction ds with
  | nil => intro acc; simp [Nat.ofDigits]
  | cons d t ih =>
    intro acc
    have hd : d < 10 := hds d (List.mem_cons_self d t)
    have ht : ∀ e ∈ t, e < 10 := fun e he => hds e (List.mem_cons_of_mem d he)
    simp only [List.map_cons, List.foldl_cons, charVal_digitChar d hd,
      List.reverse_cons, List.length_cons]
    rw [ih ht (10 * acc + d), Nat.ofDigits_append]
    simp [Nat.ofDigits_singleton]
    ring

lemma charsToNat_natToChars (n : Nat) : charsToNat (natToChars n) = n := by
  unfold charsToNat natToChars
  rw [charsToNat_foldl (decDigits n) (decDigits_lt_ten n) 0]
  simp only [Nat.zero_mul, Nat.zero_add]
  unfold decDigits
  by_cases h : n = 0
  · simp [h, Nat.ofDigits]
  · simp only [h, if_false, List.reverse_reverse]
    exact Nat.ofDigits_digits 10 n

/-- C9: for all non-negative integers w, h, x, y, formatting a box as the
string `WxH+X+Y` (as `find_sub_images` emits it, autocrop.py line 74) and
re-parsing it by extracting the digit runs in order (as `process_sub_image`
does, autocrop.py line 87) recovers exactly the quadruple (w, h, x, y). -/
theorem box_format_parse_roundtrip (w h x y : Nat) :
    parseBox (formatBox w h x y) = some (w, h, x, y) := by
  have hx : ('x').isDigit = false := by decide
  have hp : ('+').isDigit = false := by decide
  unfold parseBox formatBox
  rw [digitRuns_run_append _ _ _ (natToChars_ne_nil w) (natToChars_isDigit w) hx,
    digitRuns_run_append _ _ _ (natToChars_ne_nil h) (natToChars_isDigit h) hp,
    digitRuns_run_append _ _ _ (natToChars_ne_nil x) (natToChars_isDigit x) hp,
    digitRuns_all_digits _ (natToChars_ne_nil y) (natToChars_isDigit y)]
  simp [charsToNat_natToChars]

/-! ### Lemmas: the orientation search -/

/-- A fold of `orientStep` over any remaining candidates leaves the state
unchanged when no remaining candidate offers space-containing text strictly
longer than the current best text. -/
lemma foldl_orientStep_fixed (eval : Nat → OcrOutcome) (l : List Nat)
    (s : OrientState)
    (hl : ∀ r ∈ l, ∀ t, eval r = OcrOutcome.text t → ' ' ∈ t →
      t.length ≤ s.best_text.length) :
    l.foldl (orientStep eval) s = s := by
  induction l with
  | nil => rfl
  | cons r l ih =>
    have hstep : orientStep eval s r = s := by
      unfold orientStep
      cases heval : eval r with
      | skipped => rfl
      | failed => rfl
      | text t =>
        have : ¬(s.best_text.length < t.length ∧ ' ' ∈ t) := by
          rintro ⟨hlt, hsp⟩
          exact absurd (hl r (List.mem_cons_self r l) t heval hsp)
            (Nat.not_le_of_lt hlt)
        simp [this]
    rw [List.foldl_cons, hstep]
    exact ih (fun r' hr' => hl r' (List.mem_cons_of_mem r hr'))

/-- C1: the Orientation Resolver evaluates the four rotation candidates in
the fixed order [0, 270, 90, 180]; a candidate replaces the current best
only if its text is strictly longer than the best text AND contains a
space; under the strict comparison a later qualifying candidate of equal
length never displaces the one already held, so the earlier candidate in
that order is kept on ties. -/
theorem orientation_order_strictness_tiebreak :
    (∀ eval, resolveOrientation eval =
      List.foldl (orientStep eval) ⟨0, [], false⟩ [0, 270, 90, 180]) ∧
    (∀ eval (s : OrientState) (r : Nat) (t : List Char),
      eval r = OcrOutcome.text t →
      orientStep eval s r =
        if s.best_text.length < t.length ∧ ' ' ∈ t then ⟨r, t, true⟩ else s) ∧
    (∀ eval (l : List Nat) (s : OrientState),
      (∀ r ∈ l, ∀ t, eval r = OcrOutcome.text t → ' ' ∈ t →
        t.length ≤ s.best_text.length) →
      l.foldl (orientStep eval) s = s) := by
  refine ⟨fun eval => rfl, ?_, foldl_orientStep_fixed⟩
  intro eval s r t heval
  unfold orientStep
  rw [heval]

/-- A concrete evaluation: rotation 0 and rotation 90 both read a
5-character space-containing text; 270 and 180 are skipped. -/
def evalTie : Nat → OcrOutcome := fun r =>
  if r = 0 then OcrOutcome.text "ab cd".data
  else if r = 90 then OcrOutcome.text "ef gh".data
  else OcrOutcome.skipped

theorem orientation_order_strictness_tiebreak_witness :
    resolveOrientation evalTie =
      List.foldl (orientStep evalTie) ⟨0, [], false⟩ [0, 270, 90, 180] ∧
    orientStep evalTie ⟨0, "ab cd".data, true⟩ 90 =
      (if ("ab cd".data.length < "ef gh".data.length ∧ ' ' ∈ "ef gh".data)
        then ⟨90, "ef gh".data, true⟩ else ⟨0, "ab cd".data, true⟩) ∧
    List.foldl (orientStep evalTie) ⟨0, "ab cd".data, true⟩ [90, 180] =
      ⟨0, "ab cd".data, true⟩ := by
  refine ⟨orientation_order_strictness_tiebreak.1 evalTie,
    orientation_order_strictness_tiebreak.2.1 evalTie _ 90 _ rfl,
    orientation_order_strictness_tiebreak.2.2 evalTie [90, 180] _ ?_⟩
  intro r hr t ht hsp
  simp only [List.mem_cons, List.not_mem_nil, or_false] at hr
  rcases hr with rfl | rfl
  · simp only [evalTie, if_false, if_pos rfl, reduceIte] at ht
    cases ht
    decide
  · simp [evalTie] at ht

/-- C4: if every candidate is skipped, yields no space-containing text, or
fails in OCR, the resolver ends in the initial state (rotation 0, empty
best text, `found_orientation = False`), and a per-candidate OCR failure
leaves the tracked best candidate unchanged while the fold continues. -/
theorem orientation_fallback_and_ocr_failure :
    (∀ obs : Nat → CandidateObs,
      (∀ r ∈ rotationOrder, ∀ t, candidateOutcome (obs r) = OcrOutcome.text t →
        ' ' ∉ t) →
      resolveOrientationObs obs = ⟨0, [], false⟩) ∧
    (∀ eval (s : OrientState) (r : Nat), eval r = OcrOutcome.failed →
      orientStep eval s r = s) := by
  constructor
  · intro obs hobs
    unfold resolveOrientationObs resolveOrientation
    exact foldl_orientStep_fixed _ rotationOrder _
      (fun r hr t ht hsp => absurd hsp (hobs r hr t ht))
  · intro eval s r heval
    unfold orientStep
    rw [heval]

/-- Observations under which every candidate is skipped: the top slice is
never predominantly dark. -/
def obsAllLight : Nat → CandidateObs := fun _ => ⟨10, false, none⟩

theorem orientation_fallback_and_ocr_failure_witness :
    resolveOrientationObs obsAllLight = ⟨0, [], false⟩ ∧
    orientStep (fun _ => OcrOutcome.failed) ⟨270, "ab cd".data, true⟩ 90 =
      ⟨270, "ab cd".data, true⟩ := by
  refine ⟨orientation_fallback_and_ocr_failure.1 obsAllLight ?_,
    orientation_fallback_and_ocr_failure.2 (fun _ => OcrOutcome.failed) _ 90 rfl⟩
  intro r hr t ht
  simp [obsAllLight, candidateOutcome] at ht

/-! ### Lemmas: the driver loop numbering -/

lemma saveLoop_spec (boxes : List (List Char)) :
    ∀ (n : Nat) (ns : List (List Char)),
      saveLoop (n, ns) boxes =
        (n + boxes.length,
          ns ++ (List.range' (n + 1) boxes.length).map outputName) := by
  induction boxes with
  | nil => intro n ns; simp [saveLoop]
  | cons b bs ih =>
    intro n ns
    unfold saveLoop at ih ⊢
    simp only [List.foldl_cons]
    rw [ih (n + 1) (ns ++ [outputName (n + 1)])]
    rw [List.length_cons, List.range'_succ, List.map_cons]
    refine Prod.ext ?_ ?_
    · simp; omega
    · simp [List.append_assoc]

lemma mainSaved_foldl (pages : List (List (List Char))) :
    ∀ (n : Nat) (ns : List (List Char)),
      pages.foldl saveLoop (n, ns) =
        (n + (pages.map List.length).sum,
          ns ++ (List.range' (n + 1) (pages.map List.length).sum).map
            outputName) := by
  induction pages with
  | nil => intro n ns; simp
  | cons p ps ih =>
    intro n ns
    rw [List.foldl_cons, saveLoop_spec p n ns,
      ih (n + p.length) (ns ++ (List.range' (n + 1) p.length).map outputName)]
    refine Prod.ext ?_ ?_
    · simp; omega
    · simp only [List.map_cons, List.sum_cons, List.append_assoc,
        ← List.map_append, List.append_cancel_left_eq, List.map_inj_left]
      rw [show n + p.length + 1 = n + 1 + p.length by omega,
        List.range'_append_1 (n + 1) p.length (ps.map List.length).sum,
        Nat.add_comm (ps.map List.length).sum p.length]

/-- C3: the run produces exactly one output file per detected BoundingBox;
the names carry the fixed leading text `final_image_`, a counter that is
consecutive starting at 1 and global across all pages, and the fixed
trailing text `.jpg`. -/
theorem output_numbering_global_consecutive
    (pages : List (List (List Char))) :
    mainSaved pages =
      ((pages.map List.length).sum,
        (List.range' 1 (pages.map List.length).sum).map outputName) ∧
    ∀ n, outputName n = "final_image_".data ++ natToChars n ++ ".jpg".data := by
  refine ⟨?_, fun n => rfl⟩
  unfold mainSaved
  rw [mainSaved_foldl pages 0 []]
  simp

/-! ### C5: the binarization threshold -/

/-- C5 as stated is false on the code: OpenCV `THRESH_BINARY` uses a
strict comparison, so a pixel with intensity exactly 200 — which the claim
says becomes foreground — becomes background (0, not the maximal 255). -/
theorem threshold_at_200_counterexample :
    200 ≤ 200 ∧ thresholdBinary200 200 = 0 ∧ (0 : Nat) ≠ 255 := by
  refine ⟨le_refl 200, ?_, by norm_num⟩
  unfold thresholdBinary200
  norm_num

/-- C5 (amended): every pixel with intensity strictly greater than 200
becomes foreground (255) and every pixel with intensity ≤ 200 becomes
background (0); the inversion applied afterwards for contour extraction
maps these to 0 and 255 respectively. -/
theorem threshold_at_200_strict :
    (∀ v, 200 < v → thresholdBinary200 v = 255) ∧
    (∀ v, v ≤ 200 → thresholdBinary200 v = 0) ∧
    (∀ img, thresholdImage img = img.map (List.map thresholdBinary200)) ∧
    (∀ v, bitwiseNot (thresholdBinary200 v) =
      if 200 < v then 0 else 255) := by
  refine ⟨?_, ?_, fun img => rfl, ?_⟩
  · intro v hv
    unfold thresholdBinary200
    simp [hv]
  · intro v hv
    unfold thresholdBinary200
    simp [Nat.not_lt_of_le hv]
  · intro v
    unfold bitwiseNot thresholdBinary200
    by_cases hv : 200 < v <;> simp [hv]

theorem threshold_at_200_strict_witness :
    thresholdBinary200 201 = 255 ∧ thresholdBinary200 200 = 0 := by
  exact ⟨threshold_at_200_strict.1 201 (by norm_num),
    threshold_at_200_strict.2.1 200 (le_refl 200)⟩

/-! ### Lemmas: the contour area filter -/

lemma contourArea_gt_iff (c : Contour) :
    5000 < contourArea c ↔ 10000 < (shoelace c).natAbs := by
  unfold contourArea
  rw [lt_div_iff₀ (by norm_num : (0 : ℚ) < 2)]
  norm_num

lemma contourArea_le_iff (c : Contour) :
    contourArea c ≤ 5000 ↔ (shoelace c).natAbs ≤ 10000 := by
  rw [← not_lt, ← not_lt, not_iff_not]
  exact contourArea_gt_iff c

lemma shoelace_nil : shoelace [] = 0 := rfl

lemma ne_nil_of_area_gt {c : Contour} (h : 5000 < contourArea c) : c ≠ [] := by
  intro hc
  subst hc
  rw [contourArea_gt_iff, shoelace_nil] at h
  simp at h

/-- C6: the Region Detector keeps exactly the contours of pixel area
strictly above 5000 (those with area ≤ 5000 contribute nothing to the
count) and emits, in order, exactly one box per surviving contour, equal to
that contour's axis-aligned bounding rectangle. -/
theorem contour_filter_and_boxes (cs : List Contour) :
    (subImageBoxes cs).length = cs.countP (fun c => 5000 < contourArea c) ∧
    List.Forall₂ (fun c b => 5000 < contourArea c ∧ b = boundingRect c)
      (cs.filter (fun c => 5000 < contourArea c)) (subImageBoxes cs) := by
  constructor
  · unfold subImageBoxes
    rw [List.length_map, ← List.countP_eq_length_filter]
  · unfold subImageBoxes
    rw [List.forall₂_map_right_iff, List.forall₂_same]
    intro c hc
    exact ⟨of_decide_eq_true (List.mem_filter.mp hc).2, rfl⟩

/-- A square contour of side 200 (area 40000). -/
def squareContour : Contour := [(0, 0), (200, 0), (200, 200), (0, 200)]

theorem contour_filter_and_boxes_witness :
    (subImageBoxes [squareContour, [(0, 0)]]).length =
      List.countP (fun c => decide (5000 < contourArea c))
        [squareContour, [(0, 0)]] ∧
    List.Forall₂ (fun c b => 5000 < contourArea c ∧ b = boundingRect c)
      (List.filter (fun c => decide (5000 < contourArea c))
        [squareContour, [(0, 0)]])
      (subImageBoxes [squareContour, [(0, 0)]]) :=
  contour_filter_and_boxes [squareContour, [(0, 0)]]

/-- C7: `find_sub_images` returns the empty sequence both when no contour
clears the area threshold and when the OpenCV pipeline raises (the
exception is caught and `[]` is returned). -/
theorem find_sub_images_empty_cases :
    (∀ e : Unit, find_sub_images_result (Except.error e) = []) ∧
    (∀ cs : List Contour, (∀ c ∈ cs, contourArea c ≤ 5000) →
      find_sub_images_result (Except.ok cs) = []) := by
  constructor
  · intro e; rfl
  · intro cs hcs
    show find_sub_images_boxes cs = []
    unfold find_sub_images_boxes subImageBoxes
    rw [List.filter_eq_nil_iff.mpr ?_]
    · rfl
    · intro c hc
      simp only [decide_eq_true_eq, not_lt]
      exact hcs c hc

theorem find_sub_images_empty_cases_witness :
    find_sub_images_result (Except.error ()) = [] ∧
    find_sub_images_result (Except.ok [[(0, 0), (1, 0), (0, 1)]]) = [] := by
  refine ⟨find_sub_images_empty_cases.1 (),
    find_sub_images_empty_cases.2 [[(0, 0), (1, 0), (0, 1)]] ?_⟩
  intro c hc
  simp only [List.mem_singleton] at hc
  subst hc
  rw [contourArea_le_iff]
  decide

/-! ### Lemmas: bounding rectangles -/

lemma foldl_min_le_init {α : Type} (f : α → Nat) (l : List α) :
    ∀ i, l.foldl (fun a q => Nat.min a (f q)) i ≤ i := by
  induction l with
  | nil => intro i; exact le_refl i
  | cons a l ih =>
    intro i
    exact le_trans (ih (Nat.min i (f a))) (Nat.min_le_left i (f a))

lemma le_foldl_max_init {α : Type} (f : α → Nat) (l : List α) :
    ∀ i, i ≤ l.foldl (fun a q => Nat.max a (f q)) i := by
  induction l with
  | nil => intro i; exact le_refl i
  | cons a l ih =>
    intro i
    exact le_trans (Nat.le_max_left i (f a)) (ih (Nat.max i (f a)))

lemma foldl_max_lt {α : Type} (f : α → Nat) (l : List α) (W : Nat) :
    ∀ i, i < W → (∀ q ∈ l, f q < W) →
      l.foldl (fun a q => Nat.max a (f q)) i < W := by
  induction l with
  | nil => intro i hi _; exact hi
  | cons a l ih =>
    intro i hi hl
    exact ih (Nat.max i (f a))
      (Nat.max_lt.mpr ⟨hi, hl a (List.mem_cons_self a l)⟩)
      (fun q hq => hl q (List.mem_cons_of_mem a hq))

/-- C2: under the library guarantee that every contour point returned by
`cv2.findContours` lies inside the page image, every box emitted by
`find_sub_images` has nonnegative offsets, strictly positive width and
height, and lies fully inside the page: x + w ≤ W and y + h ≤ H. -/
theorem boxes_within_page (W H : Nat) (cs : List Contour)
    (hin : ∀ c ∈ cs, ∀ p ∈ c, p.1 < W ∧ p.2 < H) :
    ∀ b ∈ subImageBoxes cs,
      0 ≤ b.x ∧ 0 ≤ b.y ∧ 0 < b.w ∧ 0 < b.h ∧
        b.x + b.w ≤ W ∧ b.y + b.h ≤ H := by
  intro b hb
  unfold subImageBoxes at hb
  obtain ⟨c, hcf, rfl⟩ := List.mem_map.mp hb
  obtain ⟨hcs, hp⟩ := List.mem_filter.mp hcf
  have harea : 5000 < contourArea c := of_decide_eq_true hp
  obtain ⟨p, ps, rfl⟩ := List.exists_cons_of_ne_nil (ne_nil_of_area_gt harea)
  have hpts := hin _ hcs
  have hx0 : p.1 < W := (hpts p (List.mem_cons_self p ps)).1
  have hy0 : p.2 < H := (hpts p (List.mem_cons_self p ps)).2
  have hxs : ∀ q ∈ ps, q.1 < W :=
    fun q hq => (hpts q (List.mem_cons_of_mem p hq)).1
  have hys : ∀ q ∈ ps, q.2 < H :=
    fun q hq => (hpts q (List.mem_cons_of_mem p hq)).2
  have hminx : ps.foldl (fun a q => Nat.min a q.1) p.1 ≤
      ps.foldl (fun a q => Nat.max a q.1) p.1 :=
    le_trans (foldl_min_le_init (fun q => q.1) ps p.1)
      (le_foldl_max_init (fun q => q.1) ps p.1)
  have hminy : ps.foldl (fun a q => Nat.min a q.2) p.2 ≤
      ps.foldl (fun a q => Nat.max a q.2) p.2 :=
    le_trans (foldl_min_le_init (fun q => q.2) ps p.2)
      (le_foldl_max_init (fun q => q.2) ps p.2)
  have hmaxx : ps.foldl (fun a q => Nat.max a q.1) p.1 < W :=
    foldl_max_lt (fun q => q.1) ps W p.1 hx0 hxs
  have hmaxy : ps.foldl (fun a q => Nat.max a q.2) p.2 < H :=
    foldl_max_lt (fun q => q.2) ps H p.2 hy0 hys
  simp only [boundingRect]
  refine ⟨Nat.zero_le _, Nat.zero_le _, Nat.succ_pos _, Nat.succ_pos _,
    ?_, ?_⟩ <;> omega

theorem boxes_within_page_witness :
    boundingRect squareContour ∈ subImageBoxes [squareContour] ∧
    (0 ≤ (boundingRect squareContour).x ∧
      0 ≤ (boundingRect squareContour).y ∧
      0 < (boundingRect squareContour).w ∧
      0 < (boundingRect squareContour).h ∧
      (boundingRect squareContour).x + (boundingRect squareContour).w ≤ 300 ∧
      (boundingRect squareContour).y + (boundingRect squareContour).h ≤ 300) := by
  have harea : 5000 < contourArea squareContour :=
    (contourArea_gt_iff squareContour).mpr (by decide)
  have hmem : boundingRect squareContour ∈ subImageBoxes [squareContour] := by
    unfold subImageBoxes
    rw [List.filter_cons, if_pos (decide_eq_true harea)]
    simp
  exact ⟨hmem,
    boxes_within_page 300 300 [squareContour] (by decide) _ hmem⟩

/-! ### Lemmas: the border cropper -/

lemma luma_white : luma (255, 255, 255) = 255 := by norm_num [luma]

lemma invert_convert_white (img : List (List RGB))
    (hw : ∀ row ∈ img, ∀ p ∈ row, p = ((255, 255, 255) : RGB)) :
    ∀ r ∈ invertL (convertL img), ∀ v ∈ r, v = 0 := by
  intro r hr v hv
  unfold invertL convertL at hr
  obtain ⟨r1, hr1, rfl⟩ := List.mem_map.mp hr
  obtain ⟨row, hrow, rfl⟩ := List.mem_map.mp hr1
  obtain ⟨v1, hv1, rfl⟩ := List.mem_map.mp hv
  obtain ⟨p, hp, rfl⟩ := List.mem_map.mp hv1
  rw [hw row hrow p hp, luma_white]

lemma nonzeroPositions_eq_nil (g : List (List Nat))
    (h : ∀ r ∈ g, ∀ v ∈ r, v = 0) : nonzeroPositions g = [] := by
  unfold nonzeroPositions
  rw [List.flatten_eq_nil_iff]
  intro l hl
  obtain ⟨ry, hry, rfl⟩ := List.mem_map.mp hl
  rw [List.filterMap_eq_nil_iff]
  intro cv hcv
  have hv : cv.2 ∈ ry.2 := List.snd_mem_of_mem_enum hcv
  have hrg : ry.2 ∈ g := List.snd_mem_of_mem_enum hry
  simp [h ry.2 hrg cv.2 hv]

/-- C8: on an image whose pixels are all white, the bounding-box
computation over the inverted grayscale image yields no box, so no crop is
applied and the emitted image equals the input image. -/
theorem blank_image_left_uncropped (img : List (List RGB))
    (hw : ∀ row ∈ img, ∀ p ∈ row, p = ((255, 255, 255) : RGB)) :
    getbbox (invertL (convertL img)) = none ∧ autocropBorder img = img := by
  have hz := invert_convert_white img hw
  have hnone : getbbox (invertL (convertL img)) = none := by
    unfold getbbox
    rw [nonzeroPositions_eq_nil _ hz]
  refine ⟨hnone, ?_⟩
  unfold autocropBorder
  dsimp only
  rw [hnone]
  show convertRGB (invertL (invertL (convertL img))) = img
  unfold convertRGB invertL convertL
  simp only [List.map_map]
  rw [List.map_congr_left (g := fun row => row) ?_]
  · simp
  · intro row hrow
    simp only [Function.comp_apply, List.map_map]
    rw [List.map_congr_left (g := fun p => p) ?_]
    · simp
    · intro p hp
      rw [hw row hrow p hp]
      simp [luma_white]

theorem blank_image_left_uncropped_witness :
    getbbox (invertL (convertL
      [[((255, 255, 255) : RGB), (255, 255, 255)],
        [(255, 255, 255), (255, 255, 255)]])) = none ∧
    autocropBorder
        [[((255, 255, 255) : RGB), (255, 255, 255)],
          [(255, 255, 255), (255, 255, 255)]] =
      [[((255, 255, 255) : RGB), (255, 255, 255)],
        [(255, 255, 255), (255, 255, 255)]] :=
  blank_image_left_uncropped _ (by decide)

/-- C10: every pixel of every image emitted after the border-cropping step
has equal red, green and blue channel values, because the step converts to
single-channel grayscale and only replicates back to three channels at the
end. -/
theorem output_pixels_grayscale (img : List (List RGB)) :
    ∀ row ∈ autocropBorder img, ∀ p ∈ row, p.1 = p.2.1 ∧ p.2.1 = p.2.2 := by
  intro row hrow p hp
  unfold autocropBorder at hrow
  rw [show (convertRGB = fun g => g.map (List.map (fun v => (v, v, v))))
    from rfl] at hrow
  obtain ⟨r0, hr0, rfl⟩ := List.mem_map.mp hrow
  obtain ⟨v, hv, rfl⟩ := List.mem_map.mp hp
  exact ⟨rfl, rfl⟩

theorem output_pixels_grayscale_witness :
    [((18, 18, 18) : RGB)] ∈ autocropBorder [[(10, 20, 30)]] ∧
    ((18, 18, 18) : RGB) ∈ [((18, 18, 18) : RGB)] ∧
    ((18 : Nat) = 18 ∧ (18 : Nat) = 18) :=
  ⟨by decide, by decide,
    output_pixels_grayscale [[(10, 20, 30)]] [(18, 18, 18)] (by decide)
      (18, 18, 18) (by decide)⟩

end Autocrop
